import Mathlib

/-!
Verification development for `odooup/whitelist.py`: a shallow embedding of
the sparse-checkout whitelist reconciliation engine (closure resolution,
per-namespace whitelist diffing and persistence, auto-install fixed point,
and dockerignore fragment regeneration), together with theorems settling
the specification's claims about it.

Modelling conventions:
  - Python strings are embedded as `List Char` where character-level
    operations matter (paths, the dockerignore file), and as `String`
    where only equality and set membership matter (module names, store
    keys, whitelist lines).
  - The filesystem state relevant to the program is a pair of
      * an association list `Files` from sparse-persistence-file path to
        the file's lines (a file written by this program always consists
        of newline-terminated lines, so a file is identified with its
        line list; an absent key models a non-existing file), and
      * the raw `.dockerignore` content as a `List Char` (its byte-level
        content matters for the idempotence claims).
  - Version-control side effects (`git config`, `ln -s`) are opaque
    collaborators per the specification and are not part of the state.
-/

/-- Boolean test that `p` is a (leading) prefix of `s`, character by
character; used to embed Python's `str.startswith` and as the primitive
for substring search. -/
def startsL : List Char → List Char → Bool
  | [], _ => true
  | _ :: _, [] => false
  | p :: ps, c :: cs => p = c && startsL ps cs

/-- Boolean substring test: embeds Python's `sub in s`. -/
def containsL (pat : List Char) : List Char → Bool
  | [] => startsL pat []
  | c :: t => startsL pat (c :: t) || containsL pat t

/-- Embeds `"".join(s.partition(sep)[1:])`: the suffix of `s` starting at
the first occurrence of `sep`, or `[]` when `sep` (assumed nonempty, here
always the literal `vendor`) does not occur. -/
def partitionRest (sep : List Char) : List Char → List Char
  | [] => []
  | c :: t => if startsL sep (c :: t) then c :: t else partitionRest sep t

/-- Embeds Python's `str.splitlines` for newline-only content: the list of
lines without their terminators, with no trailing empty line for a
newline-terminated input (`""` gives `[]`, `"a\n"` gives `["a"]`,
`"a\nb"` gives `["a", "b"]`). -/
def splitLines : List Char → List (List Char)
  | [] => []
  | c :: t =>
    if c = '\n' then [] :: splitLines t
    else
      match splitLines t with
      | [] => [[c]]
      | l :: ls => (c :: l) :: ls

/-- Concatenation of lines, each followed by a newline terminator. -/
def joinTerm (ls : List (List Char)) : List Char :=
  ls.foldr (fun l acc => l ++ '\n' :: acc) []

/-- Embeds `os.path.basename` (posix): the part after the last slash. -/
def basenameC (s : List Char) : List Char :=
  (s.reverse.takeWhile (fun c => c ≠ '/')).reverse

/-- Embeds `os.path.dirname` (posix): everything up to the last slash,
with trailing slashes stripped unless the head is all slashes. -/
def dirnameC (s : List Char) : List Char :=
  let head := (s.reverse.dropWhile (fun c => c ≠ '/')).reverse
  if head = [] then []
  else if head.all (fun c => c = '/') then head
  else (head.reverse.dropWhile (fun c => c = '/')).reverse

/-- Embeds the two-argument `os.path.join` (posix): `b` absolute wins;
otherwise a separator is inserted unless `a` is empty or already ends in
a slash. -/
def pjoinC (a b : List Char) : List Char :=
  if startsL ['/'] b then b
  else if a = [] then b
  else if a.getLast? = some '/' then a ++ b
  else a ++ '/' :: b

/-- Embeds Python's `str.lstrip(".")`: drops every leading dot. -/
def lstripDot (s : List Char) : List Char :=
  s.dropWhile (fun c => c = '.')

/-- Embeds `_get_ns_from_sparse_persistence_file`: cut the path at the
first occurrence of the substring `vendor`, then rejoin the directory part
with the base name stripped of its leading dots. -/
def getNs (p : List Char) : List Char :=
  let path := partitionRest ("vendor".toList) p
  pjoinC (dirnameC path) (lstripDot (basenameC path))

/-- Embeds `_get_sparse_persistence_file`:
`abspath(join(ns, "..", "." + basename(ns)))`, i.e. the hidden sibling
`dirname(ns)/.basename(ns)` of the namespace directory (`abspath` is
modelled as normalisation relative to the repository root). -/
def spfile (ns : String) : String :=
  String.mk (dirnameC ns.toList ++ '/' :: '.' :: basenameC ns.toList)

/-- Payload of a known graph node: the `namespace` attribute together with
the manifest fields the program reads (`depends`, `auto_install`). -/
structure MNode where
  ns : String
  depends : List String
  auto_install : Bool
deriving DecidableEq

/-- The module dependency graph: the node list (in networkx iteration
order), the edge list (an edge `(a, b)` means `b` depends on `a`, so the
ancestors of a target are its transitive dependencies), and the per-node
payload (`none` embeds networkx's empty attribute dict: a module that is
referenced but defined nowhere). -/
structure Graph where
  nodes : List String
  edges : List (String × String)
  payload : String → Option MNode

/-- The sparse-persistence file store: path of the file, mapped to its
lines; an absent key is a file that does not exist. -/
def Files := List (String × List String)
deriving DecidableEq

/-- The mutable state the program touches: the sparse whitelist files and
the raw `.dockerignore` content. -/
structure St where
  files : Files
  dockerignore : List Char
deriving DecidableEq

/-- Write (create or overwrite) the file at path `p` with lines `v`. -/
def setF (p : String) (v : List String) : Files → Files
  | [] => [(p, v)]
  | (q, w) :: t => if q = p then (p, v) :: t else (q, w) :: setF p v t

/-- Lines of the file at `p`, the empty list when it does not exist. -/
def linesAt (fs : Files) (p : String) : List String :=
  (fs.lookup p).getD []

/-- Embeds `_get_all_sparse_files`: the set (as a deduplicated list, in
node-iteration order) of sparse-persistence-file paths of namespaces of
known modules, restricted to files that exist. -/
def allSparseFiles (g : Graph) (fs : Files) : List String :=
  ((g.nodes.filterMap (fun m => (g.payload m).map (fun n => spfile n.ns))).filter
      (fun p => (fs.lookup p).isSome)).dedup

/-- The known modules whose namespace has no persisted sparse file; the
first half of `all_white_listed` in `_reconcile_auto_install`. -/
def noFileMods (g : Graph) (fs : Files) : List String :=
  g.nodes.filterMap (fun m =>
    match g.payload m with
    | none => none
    | some n => if (fs.lookup (spfile n.ns)).isNone then some m else none)

/-- The concatenation of the entries of every existing sparse file; the
second half of `all_white_listed` in `_reconcile_auto_install`. -/
def fileEntries (g : Graph) (fs : Files) : List String :=
  (allSparseFiles g fs).flatMap (fun p => (fs.lookup p).getD [])

/-- The `all_white_listed` list built at the start of each auto-install
pass: modules with no persisted file for their namespace, followed by the
entries of every existing sparse file. -/
def allWhiteListed (g : Graph) (fs : Files) : List String :=
  noFileMods g fs ++ fileEntries g fs

/-- The `auto_install` list: known nodes whose manifest flags
`auto_install`, in node-iteration order. -/
def autoList (g : Graph) : List String :=
  g.nodes.filter (fun m =>
    match g.payload m with
    | some n => n.auto_install
    | none => false)

/-- One iteration of the auto-install loop body for module `m`: skip when
`m` has a dependency outside the pass's `all_white_listed` snapshot `aw`,
when its namespace has no persisted file, or when it is already present;
otherwise append `m` to its namespace's file and set the change flag. -/
def passStep (g : Graph) (aw : List String) (acc : Bool × Files) (m : String) : Bool × Files :=
  match g.payload m with
  | none => acc
  | some n =>
    if n.depends.all (fun d => decide (d ∈ aw)) then
      match acc.2.lookup (spfile n.ns) with
      | none => acc
      | some ex =>
        if m ∈ ex then acc
        else (true, setF (spfile n.ns) (ex ++ [m]) acc.2)
    else acc

/-- Embeds `_reconcile_auto_install`: one full pass over the auto-install
modules, against the `all_white_listed` snapshot taken at the start of the
pass; returns the change flag and the updated file store. -/
def reconcileAutoInstall (g : Graph) (fs : Files) : Bool × Files :=
  (autoList g).foldl (passStep g (allWhiteListed g fs)) (false, fs)

/-- The file store after `k` full auto-install passes. -/
def passIter (g : Graph) (k : Nat) (fs : Files) : Files :=
  (fun s => (reconcileAutoInstall g s).2)^[k] fs

/-- Fuelled embedding of `while _reconcile_auto_install(g): pass`. -/
def autoLoop (g : Graph) : Nat → Files → Files
  | 0, fs => fs
  | fuel + 1, fs =>
    let r := reconcileAutoInstall g fs
    if r.1 then autoLoop g fuel r.2 else fs

/-- The auto-install fixed-point loop. Fuel `|autoList g| + 1` provably
reaches the fixed point (each changing pass whitelists at least one new
auto-install module), so this equals the unbounded `while` loop. -/
def runAutoLoop (g : Graph) (fs : Files) : Files :=
  autoLoop g ((autoList g).length + 1) fs

/-- The `missing = should - existing` set of the seed-whitelisting step:
the required entries (the `include` entries together with the always
required `!setup/**` pattern, with set semantics) that are not already
lines of the namespace's file (an absent file reads as no lines). -/
def missingOf (ns : String) (mods : List String) (fs : Files) : List String :=
  ((mods ++ ["!setup/**"]).dedup).filter
    (fun e => decide (e ∉ (fs.lookup (spfile ns)).getD []))

/-- Embeds the per-namespace seed-whitelisting step of `whitelist` (the
body of `for ns in include.keys()`): read the existing lines (an absent
file reads as none and is created by the append), always require the
`!setup/**` pattern, and append exactly the required entries that are
missing; no write at all when nothing is missing. -/
def appendMissing (ns : String) (mods : List String) (fs : Files) : Files :=
  if missingOf ns mods fs = [] then fs
  else setF (spfile ns) (((fs.lookup (spfile ns)).getD []) ++ missingOf ns mods fs) fs

/-- The seed-whitelisting stage: one `appendMissing` per `include` entry,
in insertion order. -/
def seed (inc : List (String × List String)) (fs : Files) : Files :=
  inc.foldl (fun s nm => appendMissing nm.1 nm.2 s) fs

/-- The literal dockerignore marker line content. -/
def marker : List Char :=
  "# Autogenerated file content from here ... DO NOT MODIFY".toList

/-- Whether a line contains the marker (`DOCKERIGNORE_PLACEHOLDER in line`). -/
def markerIn (l : List Char) : Bool := containsL marker l

/-- The generated dockerignore snippet of `reconcile_dockerignore_placeholder`:
for every existing sparse file, the exclusion line `join(ns, "**")` followed
by one `"!" + join(ns, entry)` line per entry whose text does not contain
`!setup`, each fragment newline-terminated. -/
def snippetC (g : Graph) (fs : Files) : List Char :=
  (allSparseFiles g fs).foldl (fun acc p =>
    let ns := getNs p.toList
    let lessLines := (((fs.lookup p).getD []).dedup).filterMap (fun l =>
      if containsL ("!setup".toList) l.toList then none
      else some ('!' :: pjoinC ns l.toList))
    acc ++ joinTerm (pjoinC ns ("**".toList) :: lessLines)) []

/-- The rewrite of the dockerignore prefix: each line followed by `"\n"`,
stopping right after the first line containing the marker. -/
def writeThroughMarker : List (List Char) → List Char
  | [] => []
  | l :: t => l ++ '\n' :: (if markerIn l then [] else writeThroughMarker t)

/-- Embeds `reconcile_dockerignore_placeholder`'s effect on the ignore
file's content: lines are copied (newline-terminated) up to and including
the first marker line, everything after is discarded, and the generated
snippet is appended. -/
def regenD (g : Graph) (fs : Files) (d : List Char) : List Char :=
  writeThroughMarker (splitLines d) ++ snippetC g fs

/-- The full reconciliation performed by `whitelist` after validation:
seed whitelisting, the auto-install fixed point, then dockerignore
regeneration. -/
def reconcile (g : Graph) (inc : List (String × List String)) (st : St) : St :=
  { files := runAutoLoop g (seed inc st.files),
    dockerignore := regenD g (runAutoLoop g (seed inc st.files)) st.dockerignore }

/-- Direct predecessors of `m` in the dependency DAG. -/
def preds (g : Graph) (m : String) : List String :=
  (g.edges.filter (fun e => e.2 = m)).map (fun e => e.1)

/-- Embeds `networkx.ancestors(g, t)`: the transitive dependencies of `t`,
computed as the closure of the predecessor relation (the graph is finite,
so `|nodes|` closure rounds suffice). -/
def ancestors (g : Graph) (t : String) : List String :=
  ((fun s => (s ++ s.flatMap (preds g)).dedup)^[g.nodes.length] (preds g t)).dedup

/-- Add `dep` to the `perNamespace` entry of `ns` (`include.setdefault(ns,
set()); include[ns] |= {dep}`): create the entry when absent, and append
`dep` when not already a member. -/
def incAdd (inc : List (String × List String)) (ns dep : String) : List (String × List String) :=
  match inc with
  | [] => [(ns, [dep])]
  | (q, w) :: t =>
    if q = ns then (q, if dep ∈ w then w else w ++ [dep]) :: t
    else (q, w) :: incAdd t ns dep

/-- One iteration of the dependency loop: a payload-less dependency is
recorded as missing (`fail` collection), a native-namespace dependency is
skipped when requested, any other dependency joins its namespace's
`include` entry. -/
def incStep (g : Graph) (skipNative : Bool)
    (acc : List (String × List String) × List String) (dep : String) :
    List (String × List String) × List String :=
  match g.payload dep with
  | none => (acc.1, acc.2 ++ [dep])
  | some n =>
    if skipNative && containsL ("vendor/odoo".toList) n.ns.toList then acc
    else (incAdd acc.1 n.ns dep, acc.2)

/-- The loop over the target's transitive dependencies in `whitelist`:
collects the missing (payload-less) dependencies in order, skips
dependencies in the native namespace when requested, and groups the rest
by namespace, starting from the target's own entry. -/
def buildInclude (g : Graph) (tNs module : String) (skipNative : Bool) (deps : List String) :
    List (String × List String) × List String :=
  deps.foldl (incStep g skipNative) ([(tNs, [module])], [])

/-- Outcomes of one `whitelist` invocation. -/
inductive Outcome where
  | unknownModule
  | missingModule
  | nativeModule
  | missingDeps (missing : List String)
  | ok
deriving DecidableEq

/-- Process exit code of each outcome: the unknown/undefined-module and
missing-dependency paths call `ctx.exit(code=1)`; aborting on a native
target raises `SystemExit` with a message, which also terminates with
exit code 1. -/
def exitCode : Outcome → Nat
  | Outcome.ok => 0
  | Outcome.unknownModule => 1
  | Outcome.missingModule => 1
  | Outcome.nativeModule => 1
  | Outcome.missingDeps _ => 1

/-- Embeds the `whitelist` command after the work-tree check: ancestor
computation (failing when the target is not a graph node), the
undefined-target check, the native-target rejection, dependency grouping
with collection of all missing dependencies, then — only when nothing is
missing — the mutating stages. The returned state is untouched on every
failure path. -/
def whitelistCmd (g : Graph) (module : String) (skipNative : Bool) (st : St) : Outcome × St :=
  if module ∈ g.nodes then
    let deps := ancestors g module
    match g.payload module with
    | none => (Outcome.missingModule, st)
    | some node =>
      if skipNative && containsL ("vendor/odoo".toList) node.ns.toList then
        (Outcome.nativeModule, st)
      else
        let r := buildInclude g node.ns module skipNative deps
        if r.2 = [] then (Outcome.ok, reconcile g r.1 st)
        else (Outcome.missingDeps r.2, st)
  else (Outcome.unknownModule, st)

/-! String-level lemmas about substring search, line splitting and the
marker-bounded rewrite. -/

theorem startsL_containsL (pat s : List Char) (h : startsL pat s = true) :
    containsL pat s = true := by
  cases s with
  | nil => simpa [containsL] using h
  | cons c t => simp [containsL, h]

theorem containsL_of_not_startsL (pat : List Char) (c : Char) (t : List Char)
    (h : containsL pat (c :: t) = false) : containsL pat t = false := by
  rw [containsL, Bool.or_eq_false_iff] at h
  exact h.2

theorem partitionRest_eq_nil (sep p : List Char) (h : containsL sep p = false) :
    partitionRest sep p = [] := by
  induction p with
  | nil => rfl
  | cons c t ih =>
    rw [containsL, Bool.or_eq_false_iff] at h
    simp [partitionRest, h.1, ih h.2]

theorem splitLines_no_newline (d : List Char) : ∀ l ∈ splitLines d, '\n' ∉ l := by
  induction d with
  | nil => intro l hl; simp [splitLines] at hl
  | cons c t ih =>
    intro l hl
    by_cases hc : c = '\n'
    · subst hc
      rw [splitLines, if_pos rfl] at hl
      rcases List.mem_cons.mp hl with h | h
      · subst h; simp
      · exact ih l h
    · cases hsp : splitLines t with
      | nil =>
        rw [splitLines, if_neg hc, hsp] at hl
        simp only [List.mem_singleton] at hl
        subst hl
        simp only [List.mem_singleton]
        exact fun h => hc h.symm
      | cons m ms =>
        rw [splitLines, if_neg hc, hsp] at hl
        rcases List.mem_cons.mp hl with h | h
        · subst h
          intro hmem
          rcases List.mem_cons.mp hmem with h1 | h1
          · exact hc h1.symm
          · exact ih m (hsp ▸ List.mem_cons_self m ms) h1
        · exact ih l (hsp ▸ List.mem_cons_of_mem m h)

theorem splitLines_line (l X : List Char) (hl : '\n' ∉ l) :
    splitLines (l ++ '\n' :: X) = l :: splitLines X := by
  induction l with
  | nil => simp [splitLines]
  | cons c l' ih =>
    have hc : c ≠ '\n' := fun h => hl (h ▸ List.mem_cons_self c l')
    have hl' : '\n' ∉ l' := fun h => hl (List.mem_cons_of_mem c h)
    rw [List.cons_append, splitLines, if_neg hc, ih hl']

theorem splitLines_joinTerm (P : List (List Char)) (rest : List Char)
    (hP : ∀ l ∈ P, '\n' ∉ l) :
    splitLines (joinTerm P ++ rest) = P ++ splitLines rest := by
  induction P with
  | nil => simp [joinTerm]
  | cons l P' ih =>
    have h1 : joinTerm (l :: P') = l ++ '\n' :: joinTerm P' := rfl
    rw [h1, List.append_assoc, List.cons_append,
      splitLines_line l _ (hP l (List.mem_cons_self l P')),
      ih (fun x hx => hP x (List.mem_cons_of_mem l hx))]
    rfl

theorem joinTerm_cons (a : List Char) (X : List (List Char)) :
    joinTerm (a :: X) = a ++ '\n' :: joinTerm X := rfl

theorem splitLines_reconstruct (d : List Char) :
    ∀ (P : List (List Char)) (l : List Char) (Q : List (List Char)),
      splitLines d = P ++ l :: Q → Q ≠ [] →
      ∃ rest, d = joinTerm (P ++ [l]) ++ rest := by
  induction d with
  | nil =>
    intro P l Q h _
    rw [splitLines] at h
    exact absurd h.symm (List.append_ne_nil_of_right_ne_nil P (List.cons_ne_nil l Q))
  | cons c t ih =>
    intro P l Q h hQ
    by_cases hc : c = '\n'
    · subst hc
      rw [splitLines, if_pos rfl] at h
      cases P with
      | nil =>
        simp only [List.nil_append] at h
        obtain ⟨h1, h2⟩ := List.cons_eq_cons.mp h
        refine ⟨t, ?_⟩
        simp [joinTerm, ← h1]
      | cons p0 P' =>
        rw [List.cons_append] at h
        obtain ⟨h1, h2⟩ := List.cons_eq_cons.mp h
        obtain ⟨rest, hrest⟩ := ih P' l Q h2 hQ
        refine ⟨rest, ?_⟩
        rw [← h1, List.cons_append, joinTerm_cons, hrest]
        simp
    · cases hsp : splitLines t with
      | nil =>
        rw [splitLines, if_neg hc, hsp] at h
        cases P with
        | nil =>
          simp only [List.nil_append] at h
          exact absurd (List.cons_eq_cons.mp h).2.symm hQ
        | cons p0 P' =>
          rw [List.cons_append] at h
          exact absurd (List.cons_eq_cons.mp h).2.symm
            (List.append_ne_nil_of_right_ne_nil P' (List.cons_ne_nil l Q))
      | cons m ms =>
        rw [splitLines, if_neg hc, hsp] at h
        cases P with
        | nil =>
          simp only [List.nil_append] at h
          obtain ⟨h1, h2⟩ := List.cons_eq_cons.mp h
          obtain ⟨rest, hrest⟩ := ih [] m ms (by simpa using hsp) (h2 ▸ hQ)
          refine ⟨rest, ?_⟩
          rw [← h1, List.nil_append, joinTerm_cons] at *
          simp only [joinTerm, List.foldr] at hrest ⊢
          rw [hrest]
          simp
        | cons p0 P' =>
          rw [List.cons_append] at h
          obtain ⟨h1, h2⟩ := List.cons_eq_cons.mp h
          obtain ⟨rest, hrest⟩ := ih (m :: P') l Q (by rw [hsp, h2, List.cons_append]) hQ
          refine ⟨rest, ?_⟩
          rw [← h1, hrest]
          simp [joinTerm_cons, List.cons_append, List.append_assoc]

theorem writeThroughMarker_eq (P : List (List Char)) (l : List Char) (X : List (List Char))
    (hP : ∀ x ∈ P, markerIn x = false) (hl : markerIn l = true) :
    writeThroughMarker (P ++ l :: X) = joinTerm (P ++ [l]) := by
  induction P with
  | nil => simp [writeThroughMarker, hl, joinTerm]
  | cons p P' ih =>
    have hp : markerIn p = false := hP p (List.mem_cons_self p P')
    rw [List.cons_append, writeThroughMarker, hp]
    simp only [Bool.false_eq_true, if_false]
    rw [ih (fun x hx => hP x (List.mem_cons_of_mem p hx))]
    rfl

theorem first_marker_decomp (L : List (List Char)) (h : ∃ l ∈ L, markerIn l = true) :
    ∃ P l Q, L = P ++ l :: Q ∧ markerIn l = true ∧ ∀ x ∈ P, markerIn x = false := by
  induction L with
  | nil => simp at h
  | cons a L' ih =>
    by_cases ha : markerIn a = true
    · exact ⟨[], a, L', rfl, ha, by simp⟩
    · obtain ⟨l, hl, hml⟩ := h
      rcases List.mem_cons.mp hl with he | he
      · exact absurd (he ▸ hml) ha
      · obtain ⟨P, l', Q, h1, h2, h3⟩ := ih ⟨l, he, hml⟩
        refine ⟨a :: P, l', Q, by rw [List.cons_append, h1], h2, ?_⟩
        intro x hx
        rcases List.mem_cons.mp hx with hx | hx
        · subst hx; exact Bool.not_eq_true _ |>.mp ha
        · exact h3 x hx

/-- C10: the namespace recovered from a whitelist file's path is obtained
by cutting the path at the first occurrence of the substring `vendor` and
stripping the leading dot of the base name; consequently a whitelist file
whose path does not contain `vendor` recovers the empty namespace, not
the namespace the file was created for. -/
theorem c10_ns_recovery :
    (∀ p : List Char, containsL ("vendor".toList) p = false → getNs p = []) ∧
    getNs ("/repo/vendor/.acme".toList) = "vendor/acme".toList := by
  constructor
  · intro p h
    have hp := partitionRest_eq_nil ("vendor".toList) p h
    rw [getNs, hp]
    decide
  · decide

/-- Witness for C10 at a concrete vendor-free path. -/
theorem c10_ns_recovery_witness :
    containsL ("vendor".toList) "/repo/addons/.mymods".toList = false ∧
    getNs ("/repo/addons/.mymods".toList) = [] :=
  ⟨by decide, c10_ns_recovery.1 ("/repo/addons/.mymods".toList) (by decide)⟩

/-! Store lemmas: lookup after a write, and the only-grows order on file
stores that every mutating step of the program respects. -/

theorem lookup_setF_self (p : String) (v : List String) (fs : Files) :
    (setF p v fs).lookup p = some v := by
  induction fs with
  | nil => simp [setF, List.lookup]
  | cons qw t ih =>
    obtain ⟨q, w⟩ := qw
    by_cases h : q = p
    · subst h; simp [setF, List.lookup]
    · have hb : (p == q) = false := beq_eq_false_iff_ne.mpr (Ne.symm h)
      simp [setF, h, List.lookup, hb, ih]

theorem lookup_setF_ne (p : String) (v : List String) (fs : Files) (q : String)
    (h : q ≠ p) : (setF p v fs).lookup q = fs.lookup q := by
  induction fs with
  | nil => simp [setF, List.lookup, beq_eq_false_iff_ne.mpr h]
  | cons rw' t ih =>
    obtain ⟨r, w⟩ := rw'
    by_cases hr : r = p
    · subst hr
      simp [setF, List.lookup, beq_eq_false_iff_ne.mpr h]
    · by_cases hq : q = r
      · subst hq
        simp [setF, hr, List.lookup]
      · have hb : (q == r) = false := beq_eq_false_iff_ne.mpr hq
        simp [setF, hr, List.lookup, hb, ih]

/-- The only-grows order: every file existing in `fs` still exists in
`fs'` with at least the same lines. -/
def FilesLe (fs fs' : Files) : Prop :=
  ∀ p ex, fs.lookup p = some ex → ∃ ex', fs'.lookup p = some ex' ∧ ex ⊆ ex'

theorem FilesLe.rfl (fs : Files) : FilesLe fs fs :=
  fun _ ex h => ⟨ex, h, fun _ hx => hx⟩

theorem FilesLe.trans {a b c : Files} (h1 : FilesLe a b) (h2 : FilesLe b c) :
    FilesLe a c := by
  intro p ex h
  obtain ⟨ex', hb, hs⟩ := h1 p ex h
  obtain ⟨ex'', hc, hs'⟩ := h2 p ex' hb
  exact ⟨ex'', hc, fun x hx => hs' (hs hx)⟩

theorem filesLe_setF_append (p : String) (ex add : List String) (fs : Files)
    (h : fs.lookup p = some ex) : FilesLe fs (setF p (ex ++ add) fs) := by
  intro q ey hq
  by_cases hqp : q = p
  · subst hqp
    rw [h] at hq
    exact ⟨ex ++ add, lookup_setF_self q (ex ++ add) fs,
      (Option.some.injEq _ _ ▸ hq) ▸ List.subset_append_left ex add⟩
  · exact ⟨ey, (lookup_setF_ne p (ex ++ add) fs q hqp).trans hq, fun _ hx => hx⟩

theorem filesLe_setF_new (p : String) (v : List String) (fs : Files)
    (h : fs.lookup p = none) : FilesLe fs (setF p v fs) := by
  intro q ey hq
  by_cases hqp : q = p
  · subst hqp; rw [h] at hq; exact absurd hq (Option.some_ne_none ey).symm
  · exact ⟨ey, (lookup_setF_ne p v fs q hqp).trans hq, fun _ hx => hx⟩

/-- Case analysis of one auto-install step: it either leaves the
accumulator untouched, or appends the module to its namespace's file and
sets the flag. -/
theorem passStep_spec (g : Graph) (aw : List String) (acc : Bool × Files) (m : String) :
    passStep g aw acc m = acc ∨
    ∃ n ex, g.payload m = some n ∧
      (n.depends.all (fun d => decide (d ∈ aw))) = true ∧
      acc.2.lookup (spfile n.ns) = some ex ∧ m ∉ ex ∧
      passStep g aw acc m = (true, setF (spfile n.ns) (ex ++ [m]) acc.2) := by
  cases hpay : g.payload m with
  | none => left; simp [passStep, hpay]
  | some n =>
    by_cases hdep : (n.depends.all (fun d => decide (d ∈ aw))) = true
    · cases hlk : acc.2.lookup (spfile n.ns) with
      | none => left; simp [passStep, hpay, hdep, hlk]
      | some ex =>
        by_cases hm : m ∈ ex
        · left; simp [passStep, hpay, hdep, hlk, hm]
        · exact Or.inr ⟨n, ex, rfl, hdep, hlk, hm, by simp [passStep, hpay, hdep, hlk, hm]⟩
    · left
      have hdep' : (n.depends.all (fun d => decide (d ∈ aw))) = false := by
        simpa using hdep
      simp [passStep, hpay, hdep']

theorem passStep_le (g : Graph) (aw : List String) (acc : Bool × Files) (m : String) :
    FilesLe acc.2 (passStep g aw acc m).2 := by
  rcases passStep_spec g aw acc m with h | ⟨n, ex, _, _, hlk, _, h⟩
  · rw [h]; exact FilesLe.rfl _
  · rw [h]; exact filesLe_setF_append _ ex [m] acc.2 hlk

theorem passStep_flag_true (g : Graph) (aw : List String) (acc : Bool × Files) (m : String)
    (h : acc.1 = true) : (passStep g aw acc m).1 = true := by
  rcases passStep_spec g aw acc m with he | ⟨n, ex, _, _, _, _, he⟩
  · rw [he]; exact h
  · rw [he]

theorem foldl_passStep_flag_true (g : Graph) (aw : List String) (l : List String) :
    ∀ acc : Bool × Files, acc.1 = true → (l.foldl (passStep g aw) acc).1 = true := by
  induction l with
  | nil => intro acc h; exact h
  | cons m l' ih =>
    intro acc h
    exact ih (passStep g aw acc m) (passStep_flag_true g aw acc m h)

theorem foldl_passStep_false_eq (g : Graph) (aw : List String) (l : List String) :
    ∀ acc : Bool × Files, acc.1 = false →
      (l.foldl (passStep g aw) acc).1 = false → (l.foldl (passStep g aw) acc) = acc := by
  induction l with
  | nil => intro acc _ _; rfl
  | cons m l' ih =>
    intro acc hacc hres
    rcases passStep_spec g aw acc m with he | ⟨n, ex, _, _, _, _, he⟩
    · rw [List.foldl_cons, he] at hres ⊢
      exact ih acc hacc hres
    · rw [List.foldl_cons, he] at hres
      have htrue := foldl_passStep_flag_true g aw l'
        (true, setF (spfile n.ns) (ex ++ [m]) acc.2) rfl
      rw [htrue] at hres
      exact absurd hres (by simp)

/-! Termination measure for the auto-install fixed point: the number of
auto-install modules already present in their namespace's persisted file.
Each changing pass strictly increases it, and it is bounded by the number
of auto-install modules. -/

/-- Whether auto-install module `m` is already whitelisted in its
namespace's persisted file in store `fs`. -/
def predWL (g : Graph) (fs : Files) (m : String) : Bool :=
  match g.payload m with
  | none => false
  | some n =>
    match fs.lookup (spfile n.ns) with
    | none => false
    | some ex => decide (m ∈ ex)

/-- The measure: how many auto-install modules are already whitelisted. -/
def muCount (g : Graph) (fs : Files) : Nat :=
  (autoList g).countP (predWL g fs)

theorem predWL_mono (g : Graph) (fs fs' : Files) (h : FilesLe fs fs') (m : String)
    (hm : predWL g fs m = true) : predWL g fs' m = true := by
  cases hpay : g.payload m with
  | none => simp [predWL, hpay] at hm
  | some n =>
    cases hlk : fs.lookup (spfile n.ns) with
    | none => simp [predWL, hpay, hlk] at hm
    | some ex =>
      simp only [predWL, hpay, hlk, decide_eq_true_eq] at hm
      obtain ⟨ex', hlk', hsub⟩ := h (spfile n.ns) ex hlk
      simp only [predWL, hpay, hlk', decide_eq_true_eq]
      exact hsub hm

theorem muCount_mono (g : Graph) (fs fs' : Files) (h : FilesLe fs fs') :
    muCount g fs ≤ muCount g fs' :=
  List.countP_mono_left (fun m _ => predWL_mono g fs fs' h m)

theorem muCount_strict (g : Graph) (fs fs' : Files) (m : String)
    (hm : m ∈ autoList g) (h0 : predWL g fs m = false) (h1 : predWL g fs' m = true)
    (hmono : ∀ x, predWL g fs x = true → predWL g fs' x = true) :
    muCount g fs < muCount g fs' := by
  obtain ⟨s, t, hst⟩ := List.append_of_mem hm
  rw [muCount, muCount, hst, List.countP_append, List.countP_append,
    List.countP_cons, List.countP_cons, h0, h1]
  have hs : s.countP (predWL g fs) ≤ s.countP (predWL g fs') :=
    List.countP_mono_left (fun x _ hx => hmono x hx)
  have ht : t.countP (predWL g fs) ≤ t.countP (predWL g fs') :=
    List.countP_mono_left (fun x _ hx => hmono x hx)
  simp only [Bool.false_eq_true, if_false, if_true]
  omega

/-- The core fold invariant of a pass: the store only grows, and when the
final flag is set while the initial one was not, the measure has strictly
increased. -/
theorem foldl_passStep_mu (g : Graph) (aw : List String) (l : List String)
    (hl : ∀ x ∈ l, x ∈ autoList g) :
    ∀ acc : Bool × Files,
      FilesLe acc.2 ((l.foldl (passStep g aw) acc).2) ∧
      ((l.foldl (passStep g aw) acc).1 = true →
        acc.1 = true ∨ muCount g acc.2 < muCount g ((l.foldl (passStep g aw) acc).2)) := by
  induction l with
  | nil => intro acc; exact ⟨FilesLe.rfl _, fun h => Or.inl h⟩
  | cons m l' ih =>
    intro acc
    have hmem : m ∈ autoList g := hl m (List.mem_cons_self m l')
    have hl' : ∀ x ∈ l', x ∈ autoList g := fun x hx => hl x (List.mem_cons_of_mem m hx)
    obtain ⟨ihle, ihflag⟩ := ih hl' (passStep g aw acc m)
    have hstep_le : FilesLe acc.2 (passStep g aw acc m).2 := passStep_le g aw acc m
    rw [List.foldl_cons]
    refine ⟨FilesLe.trans hstep_le ihle, ?_⟩
    intro hflag
    rcases passStep_spec g aw acc m with he | ⟨n, ex, hpay, hdep, hlk, hnotm, he⟩
    · rw [he] at ihle ihflag hflag ⊢
      exact ihflag hflag
    · -- the step itself appended m: the measure strictly increases.
      have hstrict : muCount g acc.2 < muCount g (passStep g aw acc m).2 := by
        apply muCount_strict g acc.2 (passStep g aw acc m).2 m hmem
        · simp [predWL, hpay, hlk, hnotm]
        · simp [predWL, hpay, he, lookup_setF_self]
        · exact fun x hx => predWL_mono g _ _ hstep_le x hx
      exact Or.inr (lt_of_lt_of_le hstrict (muCount_mono g _ _ ihle))

theorem reconcile_false_eq (g : Graph) (fs : Files)
    (h : (reconcileAutoInstall g fs).1 = false) : (reconcileAutoInstall g fs).2 = fs := by
  have := foldl_passStep_false_eq g (allWhiteListed g fs) (autoList g) (false, fs) rfl h
  rw [reconcileAutoInstall, this]

theorem reconcile_flag_mu (g : Graph) (fs : Files)
    (h : (reconcileAutoInstall g fs).1 = true) :
    muCount g fs < muCount g (reconcileAutoInstall g fs).2 := by
  have hspec := (foldl_passStep_mu g (allWhiteListed g fs) (autoList g)
    (fun x hx => hx) (false, fs)).2
  rcases hspec h with hfalse | hlt
  · exact absurd hfalse (by simp)
  · exact hlt

theorem reconcile_le (g : Graph) (fs : Files) :
    FilesLe fs (reconcileAutoInstall g fs).2 :=
  (foldl_passStep_mu g (allWhiteListed g fs) (autoList g) (fun _ hx => hx) (false, fs)).1

/-- A whitelisted-everywhere store is a fixed point of the pass. -/
theorem reconcile_noop (g : Graph) (fs : Files)
    (h : ∀ m ∈ autoList g, predWL g fs m = true) :
    reconcileAutoInstall g fs = (false, fs) := by
  rw [reconcileAutoInstall]
  suffices hgen : ∀ l : List String, (∀ m ∈ l, predWL g fs m = true) →
      l.foldl (passStep g (allWhiteListed g fs)) (false, fs) = (false, fs) from
    hgen (autoList g) h
  intro l
  induction l with
  | nil => intro _; rfl
  | cons m l' ih =>
    intro hml
    have hm := hml m (List.mem_cons_self m l')
    have hstep : passStep g (allWhiteListed g fs) (false, fs) m = (false, fs) := by
      cases hpay : g.payload m with
      | none => simp [predWL, hpay] at hm
      | some n =>
        cases hlk : fs.lookup (spfile n.ns) with
        | none => simp [predWL, hpay, hlk] at hm
        | some ex =>
          simp only [predWL, hpay, hlk, decide_eq_true_eq] at hm
          by_cases hdep : (n.depends.all (fun d => decide (d ∈ allWhiteListed g fs))) = true
          · simp [passStep, hpay, hdep, hlk, hm]
          · have hdep' : (n.depends.all (fun d => decide (d ∈ allWhiteListed g fs))) = false := by
              simpa using hdep
            simp [passStep, hpay, hdep']
    rw [List.foldl_cons, hstep]
    exact ih (fun x hx => hml x (List.mem_cons_of_mem m hx))

/-- Fuelled fixed-point bound: once the remaining fuel plus the current
measure covers `|AutoSet|`, the pass after that many iterations reports no
change. -/
theorem pass_fixed_after (g : Graph) :
    ∀ (k : Nat) (fs : Files), (autoList g).length ≤ k + muCount g fs →
      (reconcileAutoInstall g (passIter g k fs)).1 = false := by
  intro k
  induction k with
  | zero =>
    intro fs h
    have hmu : muCount g fs = (autoList g).length :=
      Nat.le_antisymm (List.countP_le_length _) (by simpa using h)
    have hall : ∀ m ∈ autoList g, predWL g fs m = true :=
      List.countP_eq_length.mp hmu
    have hfix := reconcile_noop g fs hall
    rw [passIter, Function.iterate_zero_apply, hfix]
  | succ k ih =>
    intro fs h
    by_cases hflag : (reconcileAutoInstall g fs).1 = true
    · have hmu := reconcile_flag_mu g fs hflag
      have hstep : passIter g (k + 1) fs = passIter g k ((reconcileAutoInstall g fs).2) := by
        rw [passIter, passIter, Function.iterate_succ_apply]
      rw [hstep]
      exact ih _ (by omega)
    · have hfalse : (reconcileAutoInstall g fs).1 = false := by simpa using hflag
      have heq : (reconcileAutoInstall g fs).2 = fs := reconcile_false_eq g fs hfalse
      have hfix : passIter g (k + 1) fs = fs := by
        rw [passIter]
        exact Function.iterate_fixed heq (k + 1)
      rw [hfix]
      exact hfalse

theorem autoLoop_eq_passIter (g : Graph) :
    ∀ (fuel : Nat) (fs : Files), autoLoop g fuel fs = passIter g fuel fs := by
  intro fuel
  induction fuel with
  | zero => intro fs; rfl
  | succ fuel ih =>
    intro fs
    rw [autoLoop]
    by_cases hflag : (reconcileAutoInstall g fs).1 = true
    · simp only [hflag, if_true]
      rw [ih, passIter, passIter, Function.iterate_succ_apply]
    · have hfalse : (reconcileAutoInstall g fs).1 = false := by simpa using hflag
      simp only [hfalse, Bool.false_eq_true, if_false]
      rw [passIter]
      exact (Function.iterate_fixed (reconcile_false_eq g fs hfalse) (fuel + 1)).symm

/-- The auto-install loop always stops at an actual fixed point. -/
theorem runAutoLoop_fixed (g : Graph) (fs : Files) :
    (reconcileAutoInstall g (runAutoLoop g fs)).1 = false := by
  rw [runAutoLoop, autoLoop_eq_passIter]
  exact pass_fixed_after g ((autoList g).length + 1) fs (by omega)

theorem runAutoLoop_le (g : Graph) (fs : Files) : FilesLe fs (runAutoLoop g fs) := by
  rw [runAutoLoop, autoLoop_eq_passIter]
  suffices hgen : ∀ k, FilesLe fs (passIter g k fs) from hgen _
  intro k
  induction k with
  | zero => exact FilesLe.rfl fs
  | succ k ih =>
    rw [passIter, Function.iterate_succ_apply']
    exact FilesLe.trans ih (reconcile_le g (passIter g k fs))

/-! Membership characterisations of the `all_white_listed` snapshot, and
concrete graphs used by counterexamples and witnesses. -/

theorem mem_noFileMods (g : Graph) (fs : Files) (m : String) :
    m ∈ noFileMods g fs ↔
      ∃ n, m ∈ g.nodes ∧ g.payload m = some n ∧ fs.lookup (spfile n.ns) = none := by
  rw [noFileMods, List.mem_filterMap]
  constructor
  · rintro ⟨a, ha, hfa⟩
    cases hpay : g.payload a with
    | none => simp [hpay] at hfa
    | some n =>
      cases hlk : fs.lookup (spfile n.ns) with
      | some ex => simp [hpay, hlk] at hfa
      | none =>
        simp only [hpay, hlk, Option.isNone_none, if_true] at hfa
        have ham : a = m := by simpa using hfa
        exact ⟨n, ham ▸ ha, ham ▸ hpay, hlk⟩
  · rintro ⟨n, hmem, hpay, hnone⟩
    exact ⟨m, hmem, by simp [hpay, hnone]⟩

theorem mem_fileEntries (g : Graph) (fs : Files) (m : String) :
    m ∈ fileEntries g fs ↔
      ∃ p ∈ allSparseFiles g fs, ∃ ex, fs.lookup p = some ex ∧ m ∈ ex := by
  rw [fileEntries, List.mem_flatMap]
  constructor
  · rintro ⟨p, hp, hm⟩
    have hsome : (fs.lookup p).isSome := by
      have hmem := List.mem_dedup.mp hp
      exact (List.mem_filter.mp hmem).2
    obtain ⟨ex, hex⟩ := Option.isSome_iff_exists.mp hsome
    rw [hex] at hm
    exact ⟨p, hp, ex, hex, by simpa using hm⟩
  · rintro ⟨p, hp, ex, hex, hm⟩
    exact ⟨p, hp, by rw [hex]; simpa using hm⟩

/-- Graph with a single known module whose namespace has no persisted
file: the auto-install snapshot counts it as whitelisted even though no
whitelist file mentions it. -/
def gC2 : Graph :=
  { nodes := ["m"], edges := [],
    payload := fun m => if m = "m" then some ⟨"vendor/x", [], false⟩ else none }

/-- Chain of two auto-install modules in one namespace: `a1` depends on
the already-whitelisted `base`, `a2` depends on `a1`. -/
def gC3 : Graph :=
  { nodes := ["a1", "a2"], edges := [],
    payload := fun m =>
      if m = "a1" then some ⟨"vendor/x", ["base"], true⟩
      else if m = "a2" then some ⟨"vendor/x", ["a1"], true⟩
      else none }

/-- Initial store for the `gC3` scenario: the namespace file holds only
`base`. -/
def fsC3 : Files := [("vendor/.x", ["base"])]

/-- C2 (counterexample): the `allWhitelisted` snapshot is not only the
union of persisted whitelist entries — a known module whose namespace has
no persisted file is also counted, so the snapshot contains an element
that no whitelist file holds. -/
theorem c2_counterexample : "m" ∈ allWhiteListed gC2 [] ∧ "m" ∉ fileEntries gC2 [] := by
  decide

/-- C2 (amended): the snapshot used for dependency checks equals the union
of the entries of every persisted whitelist file of a namespace in the
graph, together with every known module whose namespace has no persisted
whitelist file. -/
theorem c2_snapshot_characterization (g : Graph) (fs : Files) (m : String) :
    m ∈ allWhiteListed g fs ↔
      ((∃ n, m ∈ g.nodes ∧ g.payload m = some n ∧ fs.lookup (spfile n.ns) = none) ∨
       (∃ p ∈ allSparseFiles g fs, ∃ ex, fs.lookup p = some ex ∧ m ∈ ex)) := by
  rw [allWhiteListed, List.mem_append, mem_noFileMods, mem_fileEntries]

/-- C3 (counterexample): within a single auto-install pass, a module
appended to its namespace's file is not added to the in-memory snapshot:
`a1` is appended during the pass, yet `a2`, processed later in the same
pass with `depends = [a1]`, is not whitelisted by that pass. -/
theorem c3_counterexample :
    (reconcileAutoInstall gC3 fsC3).1 = true ∧
    "a1" ∈ linesAt (reconcileAutoInstall gC3 fsC3).2 ("vendor/.x") ∧
    "a2" ∉ linesAt (reconcileAutoInstall gC3 fsC3).2 ("vendor/.x") := by
  decide

/-- C3 (amended): an appended module becomes observable only in a
subsequent pass: anything present in a persisted file at the start of a
pass is in that pass's `allWhitelisted` snapshot, and in the concrete
chain the second pass does whitelist `a2`. -/
theorem c3_next_pass_visibility :
    (∀ (g : Graph) (fs : Files) (p : String) (ex : List String) (m : String),
        fs.lookup p = some ex → m ∈ ex → p ∈ allSparseFiles g fs →
        m ∈ allWhiteListed g fs) ∧
    "a2" ∈ linesAt (reconcileAutoInstall gC3 (reconcileAutoInstall gC3 fsC3).2).2 ("vendor/.x") := by
  constructor
  · intro g fs p ex m hex hm hp
    rw [allWhiteListed, List.mem_append]
    right
    rw [fileEntries, List.mem_flatMap]
    exact ⟨p, hp, by rw [hex]; simpa using hm⟩
  · decide

/-- Witness for the amended C3 at the concrete chain. -/
theorem c3_next_pass_visibility_witness :
    List.lookup ("vendor/.x") fsC3 = some ["base"] ∧
    "base" ∈ allWhiteListed gC3 fsC3 :=
  ⟨by decide,
    c3_next_pass_visibility.1 gC3 fsC3 ("vendor/.x") ["base"] "base"
      (by decide) (by decide) (by decide)⟩

/-- C4: the auto-install fixed-point loop terminates: a pass that reports
no change leaves the store untouched (so the loop exits), a pass that
reports a change has appended at least one new auto-install module to a
whitelist (the measure strictly increases), and after at most `|AutoSet|`
passes the store is a fixed point. -/
theorem c4_termination (g : Graph) (fs : Files) :
    ((reconcileAutoInstall g fs).1 = false → (reconcileAutoInstall g fs).2 = fs) ∧
    ((reconcileAutoInstall g fs).1 = true →
      muCount g fs < muCount g (reconcileAutoInstall g fs).2) ∧
    (reconcileAutoInstall g (passIter g ((autoList g).length) fs)).1 = false :=
  ⟨reconcile_false_eq g fs, reconcile_flag_mu g fs,
    pass_fixed_after g ((autoList g).length) fs (Nat.le_add_right _ _)⟩

/-- Witness for C4 at the concrete chain: the first pass changes the
store and strictly increases the measure, and after `|AutoSet|` passes
the loop is at a fixed point. -/
theorem c4_termination_witness :
    (reconcileAutoInstall gC3 fsC3).1 = true ∧
    muCount gC3 fsC3 < muCount gC3 (reconcileAutoInstall gC3 fsC3).2 ∧
    (reconcileAutoInstall gC3 (passIter gC3 ((autoList gC3).length) fsC3)).1 = false :=
  ⟨by decide, (c4_termination gC3 fsC3).2.1 (by decide), (c4_termination gC3 fsC3).2.2⟩

/-! Lemmas about the seed-whitelisting append step. -/

theorem missingOf_not_mem_existing (ns : String) (mods : List String) (fs : Files)
    (x : String) (hx : x ∈ missingOf ns mods fs) :
    x ∉ (fs.lookup (spfile ns)).getD [] := by
  have hfilter := (List.mem_filter.mp hx).2
  simpa using hfilter

theorem missingOf_nodup (ns : String) (mods : List String) (fs : Files) :
    (missingOf ns mods fs).Nodup :=
  (List.nodup_dedup (mods ++ ["!setup/**"])).filter _

theorem appendMissing_lookup (ns : String) (mods : List String) (fs : Files) :
    (appendMissing ns mods fs).lookup (spfile ns) =
      if missingOf ns mods fs = [] then fs.lookup (spfile ns)
      else some (((fs.lookup (spfile ns)).getD []) ++ missingOf ns mods fs) := by
  by_cases h : missingOf ns mods fs = []
  · rw [appendMissing, if_pos h, if_pos h]
  · rw [appendMissing, if_neg h, if_neg h, lookup_setF_self]

theorem appendMissing_count_mem (ns : String) (mods : List String) (fs : Files)
    (e : String) (he : e ∈ linesAt fs (spfile ns)) :
    List.count e (linesAt (appendMissing ns mods fs) (spfile ns)) =
      List.count e (linesAt fs (spfile ns)) := by
  rw [linesAt, appendMissing_lookup]
  by_cases h : missingOf ns mods fs = []
  · rw [if_pos h]; rfl
  · rw [if_neg h]
    simp only [Option.getD_some]
    rw [List.count_append]
    have hzero : List.count e (missingOf ns mods fs) = 0 :=
      List.count_eq_zero.mpr (fun hc => missingOf_not_mem_existing ns mods fs e hc he)
    rw [hzero, linesAt]
    omega

theorem appendMissing_setup_count (ns : String) (mods : List String) (fs : Files)
    (h : List.count ("!setup/**") (linesAt fs (spfile ns)) = 1) :
    List.count ("!setup/**") (linesAt (appendMissing ns mods fs) (spfile ns)) = 1 := by
  have hmem : ("!setup/**") ∈ linesAt fs (spfile ns) := List.count_pos_iff.mp (by omega)
  rw [appendMissing_count_mem ns mods fs ("!setup/**") hmem]
  exact h

theorem appendMissing_setup_fresh (ns : String) (mods : List String) (fs : Files)
    (h : fs.lookup (spfile ns) = none) :
    List.count ("!setup/**") (linesAt (appendMissing ns mods fs) (spfile ns)) = 1 := by
  have hset : ("!setup/**") ∈ (mods ++ ["!setup/**"]).dedup :=
    List.mem_dedup.mpr (by simp)
  have hsetmiss : ("!setup/**") ∈ missingOf ns mods fs := by
    rw [missingOf]
    exact List.mem_filter.mpr ⟨hset, by simp [h]⟩
  have hne : missingOf ns mods fs ≠ [] := fun hnil => by rw [hnil] at hsetmiss; simp at hsetmiss
  rw [linesAt, appendMissing_lookup, if_neg hne, h]
  simp only [Option.getD_none, Option.getD_some, List.nil_append]
  exact List.count_eq_one_of_mem (missingOf_nodup ns mods fs) hsetmiss

/-- C8: the seed append step is a set-union with no duplication: when
nothing is missing it performs no write at all; an entry already present
is never appended again (its count of occurrences is preserved); and
after the first append into a fresh namespace file, any number of further
invocations (with arbitrary required sets) leave exactly one occurrence
of the `!setup/**` pattern. -/
theorem c8_append_idempotent (ns : String) (mods : List String)
    (reqs : List (List String)) (fs : Files) :
    (missingOf ns mods fs = [] → appendMissing ns mods fs = fs) ∧
    (∀ e ∈ linesAt fs (spfile ns),
      List.count e (linesAt (appendMissing ns mods fs) (spfile ns)) =
        List.count e (linesAt fs (spfile ns))) ∧
    (fs.lookup (spfile ns) = none →
      List.count ("!setup/**")
        (linesAt (reqs.foldl (fun s ms => appendMissing ns ms s) (appendMissing ns mods fs))
          (spfile ns)) = 1) := by
  refine ⟨fun h => by rw [appendMissing, if_pos h],
    fun e he => appendMissing_count_mem ns mods fs e he, fun h => ?_⟩
  have h1 := appendMissing_setup_fresh ns mods fs h
  suffices hgen : ∀ (rs : List (List String)) (s : Files),
      List.count ("!setup/**") (linesAt s (spfile ns)) = 1 →
      List.count ("!setup/**")
        (linesAt (rs.foldl (fun s ms => appendMissing ns ms s) s) (spfile ns)) = 1 from
    hgen reqs _ h1
  intro rs
  induction rs with
  | nil => intro s hs; exact hs
  | cons r rs' ih =>
    intro s hs
    rw [List.foldl_cons]
    exact ih _ (appendMissing_setup_count ns r s hs)

/-- Witness for C8: a fresh namespace file, one seed append followed by
another invocation, ends with exactly one `!setup/**` line. -/
theorem c8_append_idempotent_witness :
    List.lookup (spfile ("vendor/x")) ([] : Files) = none ∧
    List.count ("!setup/**")
      (linesAt ([["a"]].foldl (fun s ms => appendMissing ("vendor/x") ms s)
        (appendMissing ("vendor/x") ["m"] ([] : Files))) (spfile ("vendor/x"))) = 1 :=
  ⟨by decide, (c8_append_idempotent ("vendor/x") ["m"] [["a"]] ([] : Files)).2.2 (by decide)⟩

/-! Seed-stage lemmas: the seed appends make every required entry present,
the store only grows across all mutating stages, and re-seeding an
already-covering store is a no-op. -/

theorem appendMissing_le (ns : String) (mods : List String) (fs : Files) :
    FilesLe fs (appendMissing ns mods fs) := by
  by_cases h : missingOf ns mods fs = []
  · rw [appendMissing, if_pos h]; exact FilesLe.rfl fs
  · rw [appendMissing, if_neg h]
    cases hlk : fs.lookup (spfile ns) with
    | none =>
      simp only [Option.getD_none, List.nil_append]
      exact filesLe_setF_new (spfile ns) _ fs hlk
    | some ex =>
      simp only [Option.getD_some]
      exact filesLe_setF_append (spfile ns) ex _ fs hlk

theorem appendMissing_spec (ns : String) (mods : List String) (fs : Files) :
    ∃ ls, (appendMissing ns mods fs).lookup (spfile ns) = some ls ∧
      ∀ e, (e ∈ mods ∨ e = "!setup/**") → e ∈ ls := by
  have hreq : ∀ e : String, (e ∈ mods ∨ e = "!setup/**") →
      e ∈ (mods ++ ["!setup/**"]).dedup := by
    intro e he
    apply List.mem_dedup.mpr
    rcases he with h | h
    · exact List.mem_append.mpr (Or.inl h)
    · exact List.mem_append.mpr (Or.inr (by simp [h]))
  by_cases h : missingOf ns mods fs = []
  · have hcov : ∀ x ∈ (mods ++ ["!setup/**"]).dedup,
        x ∈ (fs.lookup (spfile ns)).getD [] := by
      intro x hx
      have := List.filter_eq_nil_iff.mp h x hx
      simpa using this
    cases hlk : fs.lookup (spfile ns) with
    | none =>
      exfalso
      have hsetup := hcov ("!setup/**") (hreq _ (Or.inr rfl))
      rw [hlk] at hsetup
      simp at hsetup
    | some ex =>
      refine ⟨ex, by rw [appendMissing, if_pos h, hlk], ?_⟩
      intro e he
      have := hcov e (hreq e he)
      rw [hlk] at this
      simpa using this
  · refine ⟨((fs.lookup (spfile ns)).getD []) ++ missingOf ns mods fs,
      by rw [appendMissing, if_neg h, lookup_setF_self], ?_⟩
    intro e he
    by_cases hex : e ∈ (fs.lookup (spfile ns)).getD []
    · exact List.mem_append.mpr (Or.inl hex)
    · refine List.mem_append.mpr (Or.inr ?_)
      rw [missingOf]
      exact List.mem_filter.mpr ⟨hreq e he, by simpa using hex⟩

theorem appendMissing_noop (ns : String) (mods : List String) (fs : Files)
    (h : ∃ ls, fs.lookup (spfile ns) = some ls ∧
      ∀ e, (e ∈ mods ∨ e = "!setup/**") → e ∈ ls) :
    appendMissing ns mods fs = fs := by
  obtain ⟨ls, hls, hall⟩ := h
  have hmiss : missingOf ns mods fs = [] := by
    rw [missingOf]
    apply List.filter_eq_nil_iff.mpr
    intro x hx
    have hx' : x ∈ mods ∨ x = "!setup/**" := by
      rcases List.mem_append.mp (List.mem_dedup.mp hx) with h | h
      · exact Or.inl h
      · exact Or.inr (by simpa using h)
    have hxls : x ∈ ls := hall x hx'
    simp [hls, hxls]
  rw [appendMissing, if_pos hmiss]

theorem seed_le (inc : List (String × List String)) :
    ∀ fs : Files, FilesLe fs (seed inc fs) := by
  induction inc with
  | nil => intro fs; exact FilesLe.rfl fs
  | cons nm rest ih =>
    intro fs
    rw [seed, List.foldl_cons]
    exact FilesLe.trans (appendMissing_le nm.1 nm.2 fs) (ih (appendMissing nm.1 nm.2 fs))

theorem seed_spec (inc : List (String × List String)) :
    ∀ (fs : Files) (nm : String × List String), nm ∈ inc →
      ∃ ls, (seed inc fs).lookup (spfile nm.1) = some ls ∧
        ∀ e, (e ∈ nm.2 ∨ e = "!setup/**") → e ∈ ls := by
  induction inc with
  | nil => intro fs nm h; simp at h
  | cons nm0 rest ih =>
    intro fs nm hmem
    rw [seed, List.foldl_cons]
    rcases List.mem_cons.mp hmem with he | he
    · subst he
      obtain ⟨ls, hls, hall⟩ := appendMissing_spec nm.1 nm.2 fs
      obtain ⟨ls', hls', hsub⟩ := seed_le rest (appendMissing nm.1 nm.2 fs) (spfile nm.1) ls hls
      exact ⟨ls', hls', fun e he => hsub (hall e he)⟩
    · exact ih (appendMissing nm0.1 nm0.2 fs) nm he

theorem seed_noop (inc : List (String × List String)) :
    ∀ fs : Files, (∀ nm ∈ inc, ∃ ls, fs.lookup (spfile nm.1) = some ls ∧
        ∀ e, (e ∈ nm.2 ∨ e = "!setup/**") → e ∈ ls) →
      seed inc fs = fs := by
  induction inc with
  | nil => intro fs _; rfl
  | cons nm0 rest ih =>
    intro fs h
    rw [seed, List.foldl_cons]
    have h0 := appendMissing_noop nm0.1 nm0.2 fs (h nm0 (List.mem_cons_self nm0 rest))
    rw [h0]
    exact ih fs (fun nm hnm => h nm (List.mem_cons_of_mem nm0 hnm))

/-- Concrete ignore file for the idempotence witness: just the marker
line. -/
def stW : St := { files := [], dockerignore := marker ++ ['\n'] }

/-- Concrete include map for the idempotence witness. -/
def incW : List (String × List String) := [("vendor/x", ["m"])]

/-- C1: the full reconciliation (seed whitelisting, auto-install fixed
point, ignore-fragment regeneration) is idempotent: a second run on the
resulting state changes neither any whitelist file nor a byte of the
ignore file, provided the ignore file contains the marker line (the
documented interface contract of the ignore file). -/
theorem c1_reconcile_idempotent (g : Graph) (inc : List (String × List String)) (st : St)
    (hm : ∃ l ∈ splitLines st.dockerignore, markerIn l = true) :
    reconcile g inc (reconcile g inc st) = reconcile g inc st := by
  have hseedspec : ∀ nm ∈ inc,
      ∃ ls, (runAutoLoop g (seed inc st.files)).lookup (spfile nm.1) = some ls ∧
        ∀ e, (e ∈ nm.2 ∨ e = "!setup/**") → e ∈ ls := by
    intro nm hnm
    obtain ⟨ls, hls, hall⟩ := seed_spec inc st.files nm hnm
    obtain ⟨ls', hls', hsub⟩ := runAutoLoop_le g (seed inc st.files) (spfile nm.1) ls hls
    exact ⟨ls', hls', fun e he => hsub (hall e he)⟩
  have hseed : seed inc (runAutoLoop g (seed inc st.files)) = runAutoLoop g (seed inc st.files) :=
    seed_noop inc _ hseedspec
  have hfixflag : (reconcileAutoInstall g (runAutoLoop g (seed inc st.files))).1 = false :=
    runAutoLoop_fixed g (seed inc st.files)
  have hloop : runAutoLoop g (runAutoLoop g (seed inc st.files)) =
      runAutoLoop g (seed inc st.files) := by
    conv_lhs => rw [runAutoLoop, autoLoop_eq_passIter, passIter]
    exact Function.iterate_fixed (reconcile_false_eq g _ hfixflag) _
  obtain ⟨P, l, Q, hL, hml, hPm⟩ := first_marker_decomp (splitLines st.dockerignore) hm
  have hPnl : ∀ x ∈ P ++ [l], '\n' ∉ x := by
    intro x hx
    apply splitLines_no_newline st.dockerignore
    rw [hL]
    rcases List.mem_append.mp hx with h | h
    · exact List.mem_append.mpr (Or.inl h)
    · rw [List.mem_singleton] at h
      subst h
      exact List.mem_append.mpr (Or.inr (List.mem_cons_self x Q))
  have hw1 : writeThroughMarker (splitLines st.dockerignore) = joinTerm (P ++ [l]) := by
    rw [hL]
    exact writeThroughMarker_eq P l Q hPm hml
  have hw2 : writeThroughMarker (splitLines
      (regenD g (runAutoLoop g (seed inc st.files)) st.dockerignore)) = joinTerm (P ++ [l]) := by
    rw [regenD, hw1, splitLines_joinTerm (P ++ [l]) _ hPnl]
    have hshape : (P ++ [l]) ++
        splitLines (snippetC g (runAutoLoop g (seed inc st.files))) =
        P ++ l :: splitLines (snippetC g (runAutoLoop g (seed inc st.files))) := by simp
    rw [hshape]
    exact writeThroughMarker_eq P l _ hPm hml
  have key : regenD g (runAutoLoop g (seed inc st.files))
      (regenD g (runAutoLoop g (seed inc st.files)) st.dockerignore) =
      regenD g (runAutoLoop g (seed inc st.files)) st.dockerignore := by
    conv_lhs => rw [regenD]
    rw [hw2, regenD, hw1]
  show St.mk (runAutoLoop g (seed inc (runAutoLoop g (seed inc st.files))))
      (regenD g (runAutoLoop g (seed inc (runAutoLoop g (seed inc st.files))))
        (regenD g (runAutoLoop g (seed inc st.files)) st.dockerignore))
    = St.mk (runAutoLoop g (seed inc st.files))
      (regenD g (runAutoLoop g (seed inc st.files)) st.dockerignore)
  rw [hseed, hloop, key]

/-- Witness for C1 at a concrete graph, include map and marker-bearing
ignore file. -/
theorem c1_reconcile_idempotent_witness :
    (∃ l ∈ splitLines stW.dockerignore, markerIn l = true) ∧
    reconcile gC2 incW (reconcile gC2 incW stW) = reconcile gC2 incW stW :=
  ⟨by decide, c1_reconcile_idempotent gC2 incW stW (by decide)⟩

/-! C9: the dockerignore regeneration. -/

/-- Graph for the ignore-regeneration example: one module under
`vendor/acme`. -/
def gC9 : Graph :=
  { nodes := ["mod_a"], edges := [],
    payload := fun m => if m = "mod_a" then some ⟨"vendor/acme", [], false⟩ else none }

/-- Whitelist store for the example: the `vendor/acme` file holds the
module and the setup exclusion pattern. -/
def fsC9 : Files := [("vendor/.acme", ["mod_a", "!setup/**"])]

/-- The example's initial ignore-file content. -/
def dC9 : List Char :=
  ("keep-me\n").toList ++ marker ++ '\n' :: ("old-stale-fragment\n").toList

/-- The example's expected regenerated ignore-file content. -/
def eC9 : List Char :=
  ("keep-me\n").toList ++ marker ++ '\n' :: ("vendor/acme/**\n!vendor/acme/mod_a\n").toList

/-- Lines before the marker in the example. -/
def pC9 : List (List Char) := [("keep-me").toList]

/-- The marker line of the example. -/
def lC9 : List Char := marker

/-- Stale lines after the marker in the example. -/
def qC9 : List (List Char) := [("old-stale-fragment").toList]

/-- C9: regeneration writes the ignore file's lines verbatim up to and
including the first marker line (so the pre-marker bytes of a
newline-terminated prefix are preserved), discards everything after, and
appends the per-namespace fragments of `snippetC` (one `ns/**` exclusion
line plus one negation line per non-setup entry); in particular the
spec's concrete example regenerates to exactly the expected bytes. -/
theorem c9_regeneration (g : Graph) (fs : Files) (d : List Char)
    (P : List (List Char)) (l : List Char) (Q : List (List Char))
    (hsplit : splitLines d = P ++ l :: Q) (hl : markerIn l = true)
    (hP : ∀ x ∈ P, markerIn x = false) :
    regenD g fs d = joinTerm (P ++ [l]) ++ snippetC g fs ∧
    (Q ≠ [] → ∃ rest, d = joinTerm (P ++ [l]) ++ rest) ∧
    regenD gC9 fsC9 dC9 = eC9 := by
  refine ⟨?_, fun hQ => splitLines_reconstruct d P l Q hsplit hQ, by decide⟩
  rw [regenD, hsplit, writeThroughMarker_eq P l Q hP hl]

/-- Witness for C9 at the spec's concrete example. -/
theorem c9_regeneration_witness :
    splitLines dC9 = pC9 ++ lC9 :: qC9 ∧ markerIn lC9 = true ∧
    (∀ x ∈ pC9, markerIn x = false) ∧
    regenD gC9 fsC9 dC9 = joinTerm (pC9 ++ [lC9]) ++ snippetC gC9 fsC9 :=
  ⟨by decide, by decide, by decide,
    (c9_regeneration gC9 fsC9 dC9 pC9 lC9 qC9 (by decide) (by decide) (by decide)).1⟩

/-! C5, C6, C7: the validation paths of the `whitelist` command. -/

theorem foldl_incStep_misses (g : Graph) (sn : Bool) (deps : List String) :
    ∀ acc : List (String × List String) × List String,
      (deps.foldl (incStep g sn) acc).2 =
        acc.2 ++ deps.filter (fun d => (g.payload d).isNone) := by
  induction deps with
  | nil => intro acc; simp
  | cons dep rest ih =>
    intro acc
    rw [List.foldl_cons, ih]
    cases hpay : g.payload dep with
    | none =>
      have hstep : (incStep g sn acc dep).2 = acc.2 ++ [dep] := by simp [incStep, hpay]
      rw [hstep, List.filter_cons]
      simp [hpay]
    | some n =>
      have hstep : (incStep g sn acc dep).2 = acc.2 := by
        simp only [incStep, hpay]
        by_cases hc : (sn && containsL ("vendor/odoo".toList) n.ns.toList) = true
        · rw [if_pos hc]
        · rw [if_neg hc]
      rw [hstep, List.filter_cons]
      simp [hpay]

theorem buildInclude_misses (g : Graph) (tNs module : String) (sn : Bool)
    (deps : List String) :
    (buildInclude g tNs module sn deps).2 =
      deps.filter (fun d => (g.payload d).isNone) := by
  rw [buildInclude, foldl_incStep_misses]
  simp

theorem incAdd_mem (ns dep : String) :
    ∀ (inc : List (String × List String)) (p : String × List String) (m : String),
      p ∈ incAdd inc ns dep → m ∈ p.2 → (∃ q ∈ inc, m ∈ q.2) ∨ m = dep := by
  intro inc
  induction inc with
  | nil =>
    intro p m hp hm
    rw [incAdd] at hp
    simp only [List.mem_singleton] at hp
    subst hp
    simp only [List.mem_singleton] at hm
    exact Or.inr hm
  | cons qw rest ih =>
    intro p m hp hm
    obtain ⟨q, w⟩ := qw
    by_cases hq : q = ns
    · subst hq
      rw [incAdd, if_pos rfl] at hp
      rcases List.mem_cons.mp hp with he | he
      · subst he
        simp only at hm
        by_cases hd : dep ∈ w
        · rw [if_pos hd] at hm
          exact Or.inl ⟨(q, w), List.mem_cons_self _ _, hm⟩
        · rw [if_neg hd] at hm
          rcases List.mem_append.mp hm with h | h
          · exact Or.inl ⟨(q, w), List.mem_cons_self _ _, h⟩
          · exact Or.inr (by simpa using h)
      · exact Or.inl ⟨p, List.mem_cons_of_mem _ he, hm⟩
    · rw [incAdd, if_neg hq] at hp
      rcases List.mem_cons.mp hp with he | he
      · subst he
        exact Or.inl ⟨(q, w), List.mem_cons_self _ _, hm⟩
      · rcases ih p m he hm with ⟨q', hq', hmq'⟩ | hd
        · exact Or.inl ⟨q', List.mem_cons_of_mem _ hq', hmq'⟩
        · exact Or.inr hd

/-- The invariant of the dependency loop under native exclusion: no
member of any `include` entry, other than the target, has a namespace
containing the native prefix. -/
def IncInv (g : Graph) (module : String) (inc : List (String × List String)) : Prop :=
  ∀ p ∈ inc, ∀ m ∈ p.2, m ≠ module → ∀ n, g.payload m = some n →
    containsL ("vendor/odoo".toList) n.ns.toList = false

theorem foldl_incStep_inv (g : Graph) (module : String) (deps : List String) :
    ∀ acc : List (String × List String) × List String,
      IncInv g module acc.1 → IncInv g module ((deps.foldl (incStep g true) acc).1) := by
  induction deps with
  | nil => intro acc h; exact h
  | cons dep rest ih =>
    intro acc hinv
    rw [List.foldl_cons]
    apply ih
    cases hpay : g.payload dep with
    | none =>
      have hstep : (incStep g true acc dep).1 = acc.1 := by simp [incStep, hpay]
      rw [hstep]
      exact hinv
    | some n =>
      by_cases hc : containsL ("vendor/odoo".toList) n.ns.toList = true
      · have hstep : (incStep g true acc dep).1 = acc.1 := by
          simp only [incStep, hpay]
          rw [if_pos (show (true && containsL ("vendor/odoo".toList) n.ns.toList) = true by
            rw [Bool.true_and]; exact hc)]
        rw [hstep]
        exact hinv
      · have hcf : containsL ("vendor/odoo".toList) n.ns.toList = false := by simpa using hc
        have hstep : (incStep g true acc dep).1 = incAdd acc.1 n.ns dep := by
          simp only [incStep, hpay]
          rw [if_neg (show ¬ ((true && containsL ("vendor/odoo".toList) n.ns.toList) = true) by
            rw [Bool.true_and, hcf]; simp)]
        rw [hstep]
        intro p hp m hm hne n' hpay'
        rcases incAdd_mem n.ns dep acc.1 p m hp hm with ⟨q', hq', hmq'⟩ | heq
        · exact hinv q' hq' m hmq' hne n' hpay'
        · subst heq
          rw [hpay] at hpay'
          have hn : n = n' := by simpa using hpay'
          rw [← hn]
          exact hcf

theorem not_startsL_of_not_containsL (pat s : List Char)
    (h : containsL pat s = false) : startsL pat s = false := by
  by_cases hs : startsL pat s = true
  · exact absurd (startsL_containsL pat s hs) (by simp [h])
  · simpa using hs

/-- C5: when any transitive dependency of the target lacks a payload, the
command reports the full list of missing dependencies (the complete
filter of the closure, not only the first), exits non-zero, and performs
no mutation. -/
theorem c5_missing_dependency_abort (g : Graph) (module : String) (node : MNode)
    (skipNative : Bool) (st : St)
    (hmem : module ∈ g.nodes) (hpay : g.payload module = some node)
    (hnat : (skipNative && containsL ("vendor/odoo".toList) node.ns.toList) = false)
    (hmiss : (ancestors g module).filter (fun d => (g.payload d).isNone) ≠ []) :
    whitelistCmd g module skipNative st =
      (Outcome.missingDeps ((ancestors g module).filter (fun d => (g.payload d).isNone)), st) ∧
    exitCode (whitelistCmd g module skipNative st).1 ≠ 0 := by
  have hb := buildInclude_misses g node.ns module skipNative (ancestors g module)
  have hcmd : whitelistCmd g module skipNative st =
      (Outcome.missingDeps ((ancestors g module).filter (fun d => (g.payload d).isNone)), st) := by
    simp only [whitelistCmd]
    rw [if_pos hmem]
    simp only [hpay]
    rw [if_neg (show ¬ ((skipNative && containsL ("vendor/odoo".toList) node.ns.toList) = true) by
      rw [hnat]; simp), hb, if_neg hmiss]
  exact ⟨hcmd, by rw [hcmd]; simp [exitCode]⟩

/-- C6: an unknown target (not a graph node) or an undefined target (a
node without payload) makes the command exit non-zero with the matching
diagnostic and perform no mutation. -/
theorem c6_bad_target (g : Graph) (module : String) (skipNative : Bool) (st : St)
    (h : module ∉ g.nodes ∨ g.payload module = none) :
    (whitelistCmd g module skipNative st).2 = st ∧
    exitCode (whitelistCmd g module skipNative st).1 ≠ 0 ∧
    ((whitelistCmd g module skipNative st).1 = Outcome.unknownModule ∨
     (whitelistCmd g module skipNative st).1 = Outcome.missingModule) := by
  by_cases hmem : module ∈ g.nodes
  · rcases h with h | h
    · exact absurd hmem h
    · have hcmd : whitelistCmd g module skipNative st = (Outcome.missingModule, st) := by
        simp only [whitelistCmd]
        rw [if_pos hmem]
        simp only [h]
      rw [hcmd]
      exact ⟨rfl, by simp [exitCode], Or.inr rfl⟩
  · have hcmd : whitelistCmd g module skipNative st = (Outcome.unknownModule, st) := by
      simp only [whitelistCmd]
      rw [if_neg hmem]
    rw [hcmd]
    exact ⟨rfl, by simp [exitCode], Or.inl rfl⟩

/-- C7: under native exclusion, no non-target module whose namespace
starts with the native prefix appears in any `perNamespace` entry of the
resolution (the code's substring filter is at least that strong), and a
target whose own namespace starts with the prefix is rejected outright
with no mutation. -/
theorem c7_namespace_exclusion (g : Graph) (module : String) (node : MNode) (st : St)
    (hmem : module ∈ g.nodes) (hpay : g.payload module = some node) :
    (∀ p ∈ (buildInclude g node.ns module true (ancestors g module)).1, ∀ m ∈ p.2,
        m ≠ module → ∀ n, g.payload m = some n →
        startsL ("vendor/odoo".toList) n.ns.toList = false) ∧
    (startsL ("vendor/odoo".toList) node.ns.toList = true →
      whitelistCmd g module true st = (Outcome.nativeModule, st)) := by
  constructor
  · have hbase : IncInv g module [(node.ns, [module])] := by
      intro p hp m hm hne n hpay'
      simp only [List.mem_singleton] at hp
      subst hp
      simp only [List.mem_singleton] at hm
      exact absurd hm hne
    have hinv := foldl_incStep_inv g module (ancestors g module)
      ([(node.ns, [module])], []) hbase
    intro p hp m hm hne n hpay'
    exact not_startsL_of_not_containsL _ _ (hinv p hp m hm hne n hpay')
  · intro hstart
    have hcont : containsL ("vendor/odoo".toList) node.ns.toList = true :=
      startsL_containsL _ _ hstart
    simp only [whitelistCmd]
    rw [if_pos hmem]
    simp only [hpay]
    rw [if_pos (show (true && containsL ("vendor/odoo".toList) node.ns.toList) = true by
      rw [Bool.true_and]; exact hcont)]

/-- Graph for the missing-dependency witness: target `t` depends on the
undefined `z`. -/
def gC5 : Graph :=
  { nodes := ["t", "z"], edges := [("z", "t")],
    payload := fun m => if m = "t" then some ⟨"vendor/a", ["z"], false⟩ else none }

/-- Payload of the witness target. -/
def nodeC5 : MNode := ⟨"vendor/a", ["z"], false⟩

/-- Witness for C5: the run on `gC5` reports the full missing list `[z]`
and leaves the state untouched. -/
theorem c5_missing_dependency_abort_witness :
    (ancestors gC5 "t").filter (fun d => (gC5.payload d).isNone) = ["z"] ∧
    whitelistCmd gC5 "t" true stW =
      (Outcome.missingDeps ((ancestors gC5 "t").filter (fun d => (gC5.payload d).isNone)), stW) :=
  ⟨by decide,
    (c5_missing_dependency_abort gC5 "t" nodeC5 true stW (by decide) (by decide)
      (by decide) (by decide)).1⟩

/-- Witness for C6 at an unknown target. -/
theorem c6_bad_target_witness :
    ("w" ∉ gC5.nodes) ∧ (whitelistCmd gC5 "w" true stW).2 = stW ∧
    exitCode (whitelistCmd gC5 "w" true stW).1 ≠ 0 :=
  ⟨by decide, (c6_bad_target gC5 "w" true stW (Or.inl (by decide))).1,
    (c6_bad_target gC5 "w" true stW (Or.inl (by decide))).2.1⟩

/-- Payload of the exclusion witness target. -/
def nodeC7 : MNode := ⟨"vendor/acme", ["d1", "d2"], false⟩

/-- Graph for the exclusion witness: `t` depends on a native `d1` and a
non-native `d2`. -/
def gC7 : Graph :=
  { nodes := ["t", "d1", "d2"], edges := [("d1", "t"), ("d2", "t")],
    payload := fun m =>
      if m = "t" then some nodeC7
      else if m = "d1" then some ⟨"vendor/odoo/addons", [], false⟩
      else if m = "d2" then some ⟨"vendor/other", [], false⟩
      else none }

/-- Payload of the native-target witness. -/
def nodeC7b : MNode := ⟨"vendor/odoo/x", [], false⟩

/-- Graph whose target itself is native. -/
def gC7b : Graph :=
  { nodes := ["t"], edges := [],
    payload := fun m => if m = "t" then some nodeC7b else none }

/-- Witness for C7: a native target is rejected outright, and on `gC7` no
native-namespaced module other than the target appears in the resolution. -/
theorem c7_namespace_exclusion_witness :
    whitelistCmd gC7b "t" true stW = (Outcome.nativeModule, stW) ∧
    (∀ p ∈ (buildInclude gC7 nodeC7.ns "t" true (ancestors gC7 "t")).1, ∀ m ∈ p.2,
      m ≠ "t" → ∀ n, gC7.payload m = some n →
      startsL ("vendor/odoo".toList) n.ns.toList = false) :=
  ⟨(c7_namespace_exclusion gC7b "t" nodeC7b stW (by decide) (by decide)).2 (by decide),
   (c7_namespace_exclusion gC7 "t" nodeC7 stW (by decide) (by decide)).1⟩
